import Mathlib

/-!
Verification of the priority-queue engine of the dalal-street-server
repository (file `socketapi/repl/repl.go`, `models` package part) and of
its configuration loader (`utils/config.go`) and administrative console
dispatcher (`socketapi/repl/repl.go`, `repl` package part).

Modelling conventions:
* Go `uint32` prices and quantities are modelled as `Nat` (the comparators
  only compare them; no arithmetic is performed on them, so the embedding
  is exact on the `uint32` range).
* The Go slice `items []*bidItem` (respectively `[]*askItem`) is modelled
  as `List (Option (Item α))`; the `nil` pointer stored in slot 0 is
  `none`.  Where Go would dereference a `nil` pointer and panic
  (`pq.less` on an empty slot), the model returns `false`; such calls are
  unreachable from the exported operations, which is part of what is
  proved below.
* `BidPQueue` and `AskPQueue` are two textually identical copies of the
  same code in the source, differing only in the payload pointer type.
  They are embedded once, generically in the payload type `α`; the two
  constructors `NewBidPQueue` and `NewAskPQueue` are kept separate, each
  mirroring its Go original.
* The `sync.RWMutex` fields guard the operations in Go; the embedding
  gives the sequential semantics of each operation, i.e. its effect while
  the lock is held.
-/

set_option maxHeartbeats 1000000

/-- One heap entry: an opaque order reference plus price and quantity
(Go `bidItem` / `askItem`). -/
structure Item (α : Type) where
  value : α
  price : Nat
  quantity : Nat
deriving DecidableEq

/-- The priority queue (Go `BidPQueue` / `AskPQueue`), generic in the
payload type.  `items` is the backing slice including the sentinel slot 0,
`elemsCount` the live element count, `comparator` the dominance policy
bound at construction. -/
structure PQueue (α : Type) where
  items : List (Option (Item α))
  elemsCount : Nat
  comparator : Nat → Nat → Nat → Nat → Bool

/-- Go `PQType`. -/
inductive PQType where
  | MAXPQ
  | MINPQ
deriving DecidableEq

/-- Go `bidComparator`: high-price-first dominance.  Returns `true` when
the second (price, quantity) pair dominates the first. -/
def bidComparator (price1 quantity1 price2 quantity2 : Nat) : Bool :=
  if price1 < price2 then true
  else if price1 > price2 then false
  else decide (quantity2 > quantity1)

/-- Go `askComparator`: low-price-first dominance. -/
def askComparator (price1 quantity1 price2 quantity2 : Nat) : Bool :=
  if price1 > price2 then true
  else if price1 < price2 then false
  else decide (quantity2 > quantity1)

/-- Go `pq.size()`: the live element count. -/
def PQueue.size {α : Type} (pq : PQueue α) : Nat := pq.elemsCount

/-- Slot access `pq.items[i]` (out-of-range reads give `none`; all
reachable accesses are in range). -/
def PQueue.getItem {α : Type} (pq : PQueue α) (i : Nat) : Option (Item α) :=
  pq.items.getD i none

/-- Go `pq.less(i, j)`: apply the bound comparator to the entries in
slots `i` and `j`.  Go would panic on a `nil` slot; the model returns
`false` there (such calls are unreachable from the exported operations). -/
def PQueue.less {α : Type} (pq : PQueue α) (i j : Nat) : Bool :=
  match pq.getItem i, pq.getItem j with
  | some a, some b => pq.comparator a.price a.quantity b.price b.quantity
  | _, _ => false

/-- Go `pq.exch(i, j)`: swap slots `i` and `j`. -/
def PQueue.exch {α : Type} (pq : PQueue α) (i j : Nat) : PQueue α :=
  { pq with items := (pq.items.set i (pq.items.getD j none)).set j (pq.items.getD i none) }

/-- Go `pq.swim(k)`: sift the entry in slot `k` up toward the root while
it dominates its parent. -/
def PQueue.swim {α : Type} (pq : PQueue α) (k : Nat) : PQueue α :=
  if h : 1 < k ∧ pq.less (k / 2) k = true then
    (pq.exch (k / 2) k).swim (k / 2)
  else pq
termination_by k
decreasing_by
  obtain ⟨h1, _⟩ := h
  omega

/-- Go `pq.sink(k)`: sift the entry in slot `k` down, swapping with the
dominant child while that child dominates it.  The `0 < k` guard is not
in the Go loop condition; Go only ever calls `sink` with `k = 1`, and on
`k = 0` it would dereference the `nil` sentinel and panic. -/
def PQueue.sink {α : Type} (pq : PQueue α) (k : Nat) : PQueue α :=
  if h : 0 < k ∧ 2 * k ≤ pq.size then
    let j := if 2 * k < pq.size ∧ pq.less (2 * k) (2 * k + 1) = true then 2 * k + 1 else 2 * k
    if pq.less k j = true then (pq.exch k j).sink j else pq
  else pq
termination_by pq.size + 1 - k
decreasing_by
  obtain ⟨hk, hsz⟩ := h
  simp only [PQueue.size, PQueue.exch] at *
  split <;> omega

/-- Go `Push`: append the new entry, bump the count, sift up from the
last slot. -/
def PQueue.push {α : Type} (pq : PQueue α) (value : α) (price quantity : Nat) : PQueue α :=
  let pq1 : PQueue α :=
    { pq with items := pq.items ++ [some ⟨value, price, quantity⟩],
              elemsCount := pq.elemsCount + 1 }
  pq1.swim pq1.size

/-- Go `Pop`: on an empty queue return the `nil` sentinel and leave the
queue unchanged; otherwise capture the root, swap it with the last live
slot, truncate the slice, decrement the count, sift down from the root,
and return the captured payload. -/
def PQueue.pop {α : Type} (pq : PQueue α) : Option α × PQueue α :=
  if pq.size < 1 then (none, pq)
  else
    let maxItem := pq.getItem 1
    let pq1 := pq.exch 1 pq.size
    let pq2 : PQueue α := { pq1 with items := pq1.items.take pq.size,
                                     elemsCount := pq1.elemsCount - 1 }
    (maxItem.map Item.value, pq2.sink 1)

/-- Go `Head`: on an empty queue return the `nil` sentinel; otherwise the
root payload, without mutation. -/
def PQueue.head {α : Type} (pq : PQueue α) : Option α :=
  if pq.size < 1 then none
  else (pq.getItem 1).map Item.value

/-- Go `Empty`. -/
def PQueue.empty {α : Type} (pq : PQueue α) : Bool := pq.size == 0

/-- Opaque bid order record (`*models.Bid`); only identity matters to the
queue. -/
structure Bid where
  id : Nat
deriving DecidableEq

/-- Opaque ask order record (`*models.Ask`). -/
structure Ask where
  id : Nat
deriving DecidableEq

abbrev BidPQueue := PQueue Bid

abbrev AskPQueue := PQueue Ask

/-- Go `NewBidPQueue`: bind `bidComparator` for `MAXPQ`, `askComparator`
otherwise; backing slice starts as the single `nil` sentinel slot. -/
def NewBidPQueue (pqType : PQType) : BidPQueue :=
  { items := [none],
    elemsCount := 0,
    comparator := if pqType = PQType.MAXPQ then bidComparator else askComparator }

/-- Go `NewAskPQueue`: identical mode-to-policy binding. -/
def NewAskPQueue (pqType : PQType) : AskPQueue :=
  { items := [none],
    elemsCount := 0,
    comparator := if pqType = PQType.MAXPQ then bidComparator else askComparator }

/-! ### Fuel-indexed executable clones

`swim` and `sink` are defined by well-founded recursion, which the kernel
does not reduce; the fuel-indexed versions below are structurally
recursive and provably equal to them, and are used to evaluate concrete
scenarios. -/

/-- Structural-recursion clone of `swim`; `fuel ≥ k` suffices. -/
def swimFuel {α : Type} : Nat → PQueue α → Nat → PQueue α
  | 0, pq, _ => pq
  | fuel + 1, pq, k =>
    if 1 < k ∧ pq.less (k / 2) k = true then
      swimFuel fuel (pq.exch (k / 2) k) (k / 2)
    else pq

/-- Structural-recursion clone of `sink`; `fuel ≥ pq.size + 1 - k`
suffices. -/
def sinkFuel {α : Type} : Nat → PQueue α → Nat → PQueue α
  | 0, pq, _ => pq
  | fuel + 1, pq, k =>
    if 0 < k ∧ 2 * k ≤ pq.size then
      let j := if 2 * k < pq.size ∧ pq.less (2 * k) (2 * k + 1) = true then 2 * k + 1 else 2 * k
      if pq.less k j = true then sinkFuel fuel (pq.exch k j) j else pq
    else pq

theorem swim_eq_fuel {α : Type} :
    ∀ (fuel : Nat) (pq : PQueue α) (k : Nat), k ≤ fuel → swimFuel fuel pq k = pq.swim k := by
  intro fuel
  induction fuel with
  | zero =>
    intro pq k hk
    have hk0 : k = 0 := Nat.le_zero.mp hk
    subst hk0
    rw [PQueue.swim]
    simp [swimFuel]
  | succ fuel ih =>
    intro pq k hk
    rw [PQueue.swim]
    by_cases h : 1 < k ∧ pq.less (k / 2) k = true
    · rw [dif_pos h]
      simp only [swimFuel, if_pos h]
      exact ih _ _ (by omega)
    · rw [dif_neg h]
      simp only [swimFuel, if_neg h]

theorem sink_eq_fuel {α : Type} :
    ∀ (fuel : Nat) (pq : PQueue α) (k : Nat), pq.size + 1 - k ≤ fuel →
      sinkFuel fuel pq k = pq.sink k := by
  intro fuel
  induction fuel with
  | zero =>
    intro pq k hk
    have hk' : pq.size < k := by omega
    rw [PQueue.sink]
    rw [dif_neg (by omega)]
    simp [sinkFuel]
  | succ fuel ih =>
    intro pq k hk
    rw [PQueue.sink]
    by_cases h : 0 < k ∧ 2 * k ≤ pq.size
    · rw [dif_pos h]
      simp only [sinkFuel, if_pos h]
      by_cases hl : pq.less k (if 2 * k < pq.size ∧ pq.less (2 * k) (2 * k + 1) = true
          then 2 * k + 1 else 2 * k) = true
      · simp only [hl, if_pos rfl, if_true]
        apply ih
        simp only [PQueue.size, PQueue.exch] at h hk ⊢
        split <;> omega
      · simp only [hl]
        simp
    · rw [dif_neg h]
      simp only [sinkFuel, if_neg h]

/-- Executable clone of `push`. -/
def pushFuel {α : Type} (pq : PQueue α) (value : α) (price quantity : Nat) : PQueue α :=
  let pq1 : PQueue α :=
    { pq with items := pq.items ++ [some ⟨value, price, quantity⟩],
              elemsCount := pq.elemsCount + 1 }
  swimFuel pq1.size pq1 pq1.size

/-- Executable clone of `pop`. -/
def popFuel {α : Type} (pq : PQueue α) : Option α × PQueue α :=
  if pq.size < 1 then (none, pq)
  else
    let maxItem := pq.getItem 1
    let pq1 := pq.exch 1 pq.size
    let pq2 : PQueue α := { pq1 with items := pq1.items.take pq.size,
                                     elemsCount := pq1.elemsCount - 1 }
    (maxItem.map Item.value, sinkFuel pq.size pq2 1)

theorem pushFuel_eq {α : Type} (pq : PQueue α) (value : α) (price quantity : Nat) :
    pushFuel pq value price quantity = pq.push value price quantity := by
  unfold pushFuel PQueue.push
  exact swim_eq_fuel _ _ _ (Nat.le_refl _)

theorem popFuel_eq {α : Type} (pq : PQueue α) : popFuel pq = pq.pop := by
  unfold popFuel PQueue.pop
  by_cases h : pq.size < 1
  · simp [h]
  · simp only [if_neg h]
    congr 1
    apply sink_eq_fuel
    simp only [PQueue.size, PQueue.exch]
    simp only [PQueue.size] at h
    omega

/-! ### Operation sequences and concrete scenarios -/

/-- Pop `n` times, collecting the returned payloads in order. -/
def popList {α : Type} (pq : PQueue α) : Nat → List (Option α)
  | 0 => []
  | n + 1 => (pq.pop).1 :: popList (pq.pop).2 n

/-- Executable clone of `popList`. -/
def popListFuel {α : Type} (pq : PQueue α) : Nat → List (Option α)
  | 0 => []
  | n + 1 => (popFuel pq).1 :: popListFuel (popFuel pq).2 n

theorem popListFuel_eq {α : Type} :
    ∀ (n : Nat) (pq : PQueue α), popListFuel pq n = popList pq n := by
  intro n
  induction n with
  | zero => intro pq; rfl
  | succ n ih =>
    intro pq
    simp only [popListFuel, popList, popFuel_eq]
    rw [ih]

def bidA : Bid := ⟨1⟩

def bidB : Bid := ⟨2⟩

def bidC : Bid := ⟨3⟩

def bidD : Bid := ⟨4⟩

def askA : Ask := ⟨1⟩

def askB : Ask := ⟨2⟩

def askC : Ask := ⟨3⟩

def askD : Ask := ⟨4⟩

/-- The four-entry scenario of the spec, pushed into a favor-maximum bid
queue. -/
def bidQueue4 : BidPQueue :=
  ((((NewBidPQueue PQType.MAXPQ).push bidA 10 5).push bidB 20 1).push bidC 20 9).push bidD 15 3

/-- The same four entries pushed into a favor-minimum ask queue. -/
def askQueue4 : AskPQueue :=
  ((((NewAskPQueue PQType.MINPQ).push askA 10 5).push askB 20 1).push askC 20 9).push askD 15 3

theorem bidQueue4_fuel : bidQueue4 =
    pushFuel (pushFuel (pushFuel (pushFuel (NewBidPQueue PQType.MAXPQ) bidA 10 5)
      bidB 20 1) bidC 20 9) bidD 15 3 := by
  simp only [bidQueue4, pushFuel_eq]

theorem askQueue4_fuel : askQueue4 =
    pushFuel (pushFuel (pushFuel (pushFuel (NewAskPQueue PQType.MINPQ) askA 10 5)
      askB 20 1) askC 20 9) askD 15 3 := by
  simp only [askQueue4, pushFuel_eq]

/-- C4: for a high-price-first (favor-maximum) queue, pushing
`(A,10,5), (B,20,1), (C,20,9), (D,15,3)` in that order and popping four
times yields the payloads `C, B, D, A`. -/
theorem bidQueue4_pop_order :
    popList bidQueue4 4 = [some bidC, some bidB, some bidD, some bidA] := by
  rw [← popListFuel_eq, bidQueue4_fuel]
  decide

/-- C1 counterexample: for the low-price-first (favor-minimum) queue the
same four entries do NOT pop in the claimed order `A, D, B, C`. -/
theorem askQueue4_pop_order_claim_false :
    popList askQueue4 4 ≠ [some askA, some askD, some askB, some askC] := by
  rw [← popListFuel_eq, askQueue4_fuel]
  decide

/-- C1 amended: the low-price-first queue pops the four entries in the
order `A, D, C, B` — price 10 first, then 15, and between the two
price-20 entries the quantity-9 entry `C` beats the quantity-1 entry `B`,
exactly the tie rule the spec itself states. -/
theorem askQueue4_pop_order_amended :
    popList askQueue4 4 = [some askA, some askD, some askC, some askB] := by
  rw [← popListFuel_eq, askQueue4_fuel]
  decide

/-! ### Structural well-formedness and the heap invariant -/

/-- Structural invariant of the backing slice: its length is the live
count plus one, slot 0 permanently holds the `nil` sentinel, and every
live slot `1 ≤ i ≤ elemsCount` holds a real entry. -/
def PQueue.wf {α : Type} (pq : PQueue α) : Prop :=
  pq.items.length = pq.elemsCount + 1 ∧ pq.getItem 0 = none ∧
    ∀ i, 1 ≤ i → i ≤ pq.elemsCount → (pq.getItem i).isSome = true

/-- The heap invariant: no live child dominates its parent. -/
def PQueue.heapProp {α : Type} (pq : PQueue α) : Prop :=
  ∀ k c, 1 ≤ k → (c = 2 * k ∨ c = 2 * k + 1) → c ≤ pq.size → pq.less k c = false

/-- The two ordering axioms the heap-maintenance proofs need from a
comparator: the negation of dominance is transitive, and dominance is
asymmetric.  Both bound policies satisfy them. -/
def cmpOK (cmp : Nat → Nat → Nat → Nat → Bool) : Prop :=
  (∀ p1 q1 p2 q2 p3 q3, cmp p1 q1 p2 q2 = false → cmp p2 q2 p3 q3 = false →
      cmp p1 q1 p3 q3 = false) ∧
  (∀ p1 q1 p2 q2, cmp p1 q1 p2 q2 = true → cmp p2 q2 p1 q1 = false)

theorem cmpOK_bid : cmpOK bidComparator := by
  constructor
  · intro p1 q1 p2 q2 p3 q3 h1 h2
    unfold bidComparator at *
    split_ifs at * <;> simp_all <;> omega
  · intro p1 q1 p2 q2 h
    unfold bidComparator at *
    split_ifs at * <;> simp_all <;> omega

theorem cmpOK_ask : cmpOK askComparator := by
  constructor
  · intro p1 q1 p2 q2 p3 q3 h1 h2
    unfold askComparator at *
    split_ifs at * <;> simp_all <;> omega
  · intro p1 q1 p2 q2 h
    unfold askComparator at *
    split_ifs at * <;> simp_all <;> omega

/-! ### Slot-access lemmas -/

theorem PQueue.getItem_lt {α : Type} (pq : PQueue α) (i : Nat) (h : i < pq.items.length) :
    pq.getItem i = pq.items[i] := by
  unfold PQueue.getItem
  rw [List.getD_eq_getElem?_getD, List.getElem?_eq_getElem h]
  rfl

theorem PQueue.getItem_ge {α : Type} (pq : PQueue α) (i : Nat) (h : pq.items.length ≤ i) :
    pq.getItem i = none := by
  unfold PQueue.getItem
  rw [List.getD_eq_getElem?_getD, List.getElem?_eq_none h]
  rfl

theorem PQueue.comparator_exch {α : Type} (pq : PQueue α) (i j : Nat) :
    (pq.exch i j).comparator = pq.comparator := rfl

theorem PQueue.elemsCount_exch {α : Type} (pq : PQueue α) (i j : Nat) :
    (pq.exch i j).elemsCount = pq.elemsCount := rfl

theorem PQueue.length_exch {α : Type} (pq : PQueue α) (i j : Nat) :
    (pq.exch i j).items.length = pq.items.length := by
  unfold PQueue.exch
  simp

theorem PQueue.getItem_exch {α : Type} (pq : PQueue α) (i j t : Nat)
    (hi : i < pq.items.length) (hj : j < pq.items.length) :
    (pq.exch i j).getItem t =
      if t = i then pq.getItem j else if t = j then pq.getItem i else pq.getItem t := by
  unfold PQueue.exch PQueue.getItem
  simp only [List.getD_eq_getElem?_getD]
  by_cases htj : t = j
  · subst htj
    rw [List.getElem?_set_self (by simpa using hj)]
    by_cases hti : t = i
    · subst hti
      simp
    · simp [hti]
  · rw [List.getElem?_set_ne (fun hh => htj hh.symm)]
    by_cases hti : t = i
    · subst hti
      rw [List.getElem?_set_self hi]
      simp
    · rw [List.getElem?_set_ne (fun hh => hti hh.symm)]
      simp [hti, htj]

theorem PQueue.less_exch {α : Type} (pq : PQueue α) (i j a b : Nat)
    (hi : i < pq.items.length) (hj : j < pq.items.length) :
    (pq.exch i j).less a b =
      pq.less (if a = i then j else if a = j then i else a)
              (if b = i then j else if b = j then i else b) := by
  unfold PQueue.less
  rw [PQueue.getItem_exch _ _ _ _ hi hj, PQueue.getItem_exch _ _ _ _ hi hj,
    PQueue.comparator_exch]
  split_ifs <;> rfl

theorem PQueue.less_some {α : Type} (pq : PQueue α) (a b : Nat) (ia ib : Item α)
    (ha : pq.getItem a = some ia) (hb : pq.getItem b = some ib) :
    pq.less a b = pq.comparator ia.price ia.quantity ib.price ib.quantity := by
  unfold PQueue.less
  rw [ha, hb]

theorem PQueue.less_none_left {α : Type} (pq : PQueue α) (a b : Nat)
    (ha : pq.getItem a = none) : pq.less a b = false := by
  unfold PQueue.less
  rw [ha]

theorem PQueue.less_none_right {α : Type} (pq : PQueue α) (a b : Nat)
    (hb : pq.getItem b = none) : pq.less a b = false := by
  unfold PQueue.less
  rw [hb]
  rcases pq.getItem a with _ | _ <;> rfl

/-- Asymmetry transported to slot level. -/
theorem PQueue.less_asymm {α : Type} (pq : PQueue α) (hcmp : cmpOK pq.comparator)
    (a b : Nat) (h : pq.less a b = true) : pq.less b a = false := by
  unfold PQueue.less at *
  rcases ha : pq.getItem a with _ | ia <;> rcases hb : pq.getItem b with _ | ib <;>
    rw [ha, hb] at h <;> simp_all
  exact hcmp.2 _ _ _ _ h

/-- Transitivity of non-dominance transported to slot level; all three
slots must hold real entries. -/
theorem PQueue.less_trans_false {α : Type} (pq : PQueue α) (hcmp : cmpOK pq.comparator)
    (a b c : Nat) (ia ib ic : Item α)
    (ha : pq.getItem a = some ia) (hb : pq.getItem b = some ib) (hc : pq.getItem c = some ic)
    (h1 : pq.less a b = false) (h2 : pq.less b c = false) : pq.less a c = false := by
  rw [PQueue.less_some _ _ _ _ _ ha hb] at h1
  rw [PQueue.less_some _ _ _ _ _ hb hc] at h2
  rw [PQueue.less_some _ _ _ _ _ ha hc]
  exact hcmp.1 _ _ _ _ _ _ h1 h2

/-! ### Permutation (multiset) lemmas -/

theorem ms_set {β : Type} :
    ∀ (l : List β) (i : Nat) (a b : β), l[i]? = some b →
      (↑(l.set i a) : Multiset β) + {b} = (↑l : Multiset β) + {a} := by
  intro l
  induction l with
  | nil => intro i a b h; simp at h
  | cons x t ih =>
    intro i a b h
    cases i with
    | zero =>
      simp only [List.getElem?_cons_zero, Option.some_inj] at h
      subst h
      simp only [List.set_cons_zero, ← Multiset.cons_coe, ← Multiset.singleton_add]
      rw [add_comm ({a} + (t : Multiset β)) {x}, add_comm ({x} + (t : Multiset β)) {a}]
      rw [← add_assoc, ← add_assoc, add_comm ({x} : Multiset β) {a}]
    | succ i =>
      simp only [List.getElem?_cons_succ] at h
      simp only [List.set_cons_succ, ← Multiset.cons_coe, Multiset.cons_add]
      rw [ih i a b h]

theorem PQueue.ms_exch {α : Type} (pq : PQueue α) (i j : Nat)
    (hi : i < pq.items.length) (hj : j < pq.items.length) :
    ((pq.exch i j).items : Multiset (Option (Item α))) = (pq.items : Multiset (Option (Item α))) := by
  have hdi : pq.items.getD i none = pq.items[i] := by
    rw [List.getD_eq_getElem?_getD, List.getElem?_eq_getElem hi]
    rfl
  have hdj : pq.items.getD j none = pq.items[j] := by
    rw [List.getD_eq_getElem?_getD, List.getElem?_eq_getElem hj]
    rfl
  show ((pq.items.set i (pq.items.getD j none)).set j (pq.items.getD i none) : Multiset (Option (Item α)))
      = (pq.items : Multiset (Option (Item α)))
  rw [hdi, hdj]
  by_cases hij : i = j
  · subst hij
    have h1 := ms_set (pq.items.set i pq.items[i]) i pq.items[i] pq.items[i]
        (by rw [List.getElem?_set_self (by simpa using hi)])
    have h2 := ms_set pq.items i pq.items[i] pq.items[i] (List.getElem?_eq_getElem hi)
    exact add_right_cancel (h1.trans h2)
  · have h1 := ms_set (pq.items.set i pq.items[j]) j pq.items[i] pq.items[j]
        (by rw [List.getElem?_set_ne hij, List.getElem?_eq_getElem hj])
    have h2 := ms_set pq.items i pq.items[j] pq.items[i] (List.getElem?_eq_getElem hi)
    exact add_right_cancel (h1.trans h2)

/-! ### Preservation of well-formedness by `exch` -/

theorem PQueue.wf_exch {α : Type} (pq : PQueue α) (i j : Nat) (hwf : pq.wf)
    (hi1 : 1 ≤ i) (hin : i ≤ pq.size) (hj1 : 1 ≤ j) (hjn : j ≤ pq.size) :
    (pq.exch i j).wf := by
  obtain ⟨hlen, h0, hsome⟩ := hwf
  have hiL : i < pq.items.length := by simp only [PQueue.size] at hin; omega
  have hjL : j < pq.items.length := by simp only [PQueue.size] at hjn; omega
  refine ⟨?_, ?_, ?_⟩
  · rw [PQueue.length_exch, PQueue.elemsCount_exch]
    exact hlen
  · rw [PQueue.getItem_exch _ _ _ _ hiL hjL]
    have : ¬(0 = i) := by omega
    have h2 : ¬(0 = j) := by omega
    simp [this, h2, h0]
  · intro t ht1 htn
    rw [PQueue.elemsCount_exch] at htn
    rw [PQueue.getItem_exch _ _ _ _ hiL hjL]
    split_ifs with e1 e2
    · exact hsome j hj1 hjn
    · exact hsome i hi1 hin
    · exact hsome t ht1 htn

/-! ### Parent-edge form of the heap invariant -/

theorem PQueue.heapProp_parent {α : Type} (pq : PQueue α) (hheap : pq.heapProp) :
    ∀ j, 2 ≤ j → j ≤ pq.size → pq.less (j / 2) j = false := by
  intro j h2 hn
  exact hheap (j / 2) j (by omega) (by omega) hn

theorem PQueue.heapProp_of_parent {α : Type} (pq : PQueue α)
    (h : ∀ j, 2 ≤ j → j ≤ pq.size → pq.less (j / 2) j = false) : pq.heapProp := by
  intro k c hk hc hcn
  have hck : c / 2 = k := by omega
  have h2 : 2 ≤ c := by omega
  rw [← hck]
  exact h c h2 hcn

/-! ### Verification of `swim` -/

/-- Invariant maintained while sifting slot `k` up: every parent edge
holds except possibly the one into `k`, and the parent of `k` (when `k`
is not the root) is not dominated by either child of `k`. -/
def PQueue.swimInv {α : Type} (pq : PQueue α) (k : Nat) : Prop :=
  (∀ j, 2 ≤ j → j ≤ pq.size → j ≠ k → pq.less (j / 2) j = false) ∧
  (∀ c, (c = 2 * k ∨ c = 2 * k + 1) → c ≤ pq.size → 2 ≤ k → pq.less (k / 2) c = false)

theorem PQueue.wf_some {α : Type} (pq : PQueue α) (hwf : pq.wf) (i : Nat)
    (h1 : 1 ≤ i) (h2 : i ≤ pq.size) : ∃ it, pq.getItem i = some it := by
  obtain ⟨_, _, hsome⟩ := hwf
  exact Option.isSome_iff_exists.mp (hsome i h1 h2)

theorem PQueue.swimInv_exch {α : Type} (pq : PQueue α) (k : Nat)
    (hcmp : cmpOK pq.comparator) (hwf : pq.wf) (hk : 1 < k) (hkn : k ≤ pq.size)
    (hinv : pq.swimInv k) (hless : pq.less (k / 2) k = true) :
    (pq.exch (k / 2) k).swimInv (k / 2) := by
  have hlen := hwf.1
  have hsz : pq.size = pq.elemsCount := rfl
  have hkL : k < pq.items.length := by omega
  have hpL : k / 2 < pq.items.length := by omega
  obtain ⟨ip, hip⟩ := pq.wf_some hwf (k / 2) (by omega) (by omega)
  obtain ⟨ik, hik⟩ := pq.wf_some hwf k (by omega) hkn
  constructor
  · intro j h2j hjn hjp
    have hjn' : j ≤ pq.size := hjn
    obtain ⟨ij, hij⟩ := pq.wf_some hwf j (by omega) hjn'
    rw [pq.less_exch (k / 2) k (j / 2) j hpL hkL]
    by_cases hD : j = k
    · subst hD
      have e1 : (if j / 2 = j / 2 then j else if j / 2 = j then j / 2 else j / 2) = j := by
        rw [if_pos rfl]
      have e2 : (if j = j / 2 then j else if j = j then j / 2 else j) = j / 2 := by
        rw [if_neg (by omega), if_pos rfl]
      rw [e1, e2]
      exact pq.less_asymm hcmp _ _ hless
    · by_cases hA : j / 2 = k / 2
      · -- j is the sibling of k under their shared parent
        have e1 : (if j / 2 = k / 2 then k else if j / 2 = k then k / 2 else j / 2) = k := by
          rw [if_pos hA]
        have e2 : (if j = k / 2 then k else if j = k then k / 2 else j) = j := by
          rw [if_neg hjp, if_neg hD]
        rw [e1, e2]
        have f1 : pq.less k (k / 2) = false := pq.less_asymm hcmp _ _ hless
        have f2 : pq.less (k / 2) j = false := by
          have h := hinv.1 j h2j hjn' hD
          rwa [hA] at h
        exact pq.less_trans_false hcmp k (k / 2) j ik ip ij hik hip hij f1 f2
      · by_cases hB : j / 2 = k
        · -- j is a child of k: clause 2 of the invariant
          have e1 : (if j / 2 = k / 2 then k else if j / 2 = k then k / 2 else j / 2) = k / 2 := by
            rw [if_neg hA, if_pos hB]
          have e2 : (if j = k / 2 then k else if j = k then k / 2 else j) = j := by
            rw [if_neg hjp, if_neg hD]
          rw [e1, e2]
          exact hinv.2 j (by omega) hjn' (by omega)
        · -- edge not touched by the swap
          have e1 : (if j / 2 = k / 2 then k else if j / 2 = k then k / 2 else j / 2) = j / 2 := by
            rw [if_neg hA, if_neg hB]
          have e2 : (if j = k / 2 then k else if j = k then k / 2 else j) = j := by
            rw [if_neg hjp, if_neg hD]
          rw [e1, e2]
          exact hinv.1 j h2j hjn' hD
  · intro c hc hcn h2p
    have hcn' : c ≤ pq.size := hcn
    rw [pq.less_exch (k / 2) k (k / 2 / 2) c hpL hkL]
    have e1 : (if k / 2 / 2 = k / 2 then k else if k / 2 / 2 = k then k / 2 else k / 2 / 2)
        = k / 2 / 2 := by
      rw [if_neg (by omega), if_neg (by omega)]
    rw [e1]
    by_cases hD : c = k
    · have e2 : (if c = k / 2 then k else if c = k then k / 2 else c) = k / 2 := by
        rw [if_neg (by omega), if_pos hD]
      rw [e2]
      exact hinv.1 (k / 2) h2p (by omega) (by omega)
    · have e2 : (if c = k / 2 then k else if c = k then k / 2 else c) = c := by
        rw [if_neg (by omega), if_neg hD]
      rw [e2]
      obtain ⟨ipp, hipp⟩ := pq.wf_some hwf (k / 2 / 2) (by omega) (by omega)
      obtain ⟨ic, hic⟩ := pq.wf_some hwf c (by omega) hcn'
      have f1 : pq.less (k / 2 / 2) (k / 2) = false := hinv.1 (k / 2) h2p (by omega) (by omega)
      have f2 : pq.less (k / 2) c = false := by
        have h := hinv.1 c (by omega) hcn' hD
        have hc2 : c / 2 = k / 2 := by omega
        rwa [hc2] at h
      exact pq.less_trans_false hcmp (k / 2 / 2) (k / 2) c ipp ip ic hipp hip hic f1 f2

/-- When the sift-up loop stops, the full heap invariant holds. -/
theorem PQueue.swimInv_heapProp {α : Type} (pq : PQueue α) (k : Nat) (hinv : pq.swimInv k)
    (hstop : ¬(1 < k ∧ pq.less (k / 2) k = true)) : pq.heapProp := by
  apply pq.heapProp_of_parent
  intro j h2 hn
  by_cases hjk : j = k
  · subst hjk
    cases hb : pq.less (j / 2) j
    · rfl
    · exact absurd ⟨by omega, hb⟩ hstop
  · exact hinv.1 j h2 hn hjk

theorem swimFuel_spec {α : Type} :
    ∀ (fuel : Nat) (pq : PQueue α) (k : Nat), k ≤ fuel → cmpOK pq.comparator → pq.wf →
      1 ≤ k → k ≤ pq.size → pq.swimInv k →
      (swimFuel fuel pq k).wf ∧ (swimFuel fuel pq k).heapProp ∧
        (swimFuel fuel pq k).elemsCount = pq.elemsCount ∧
        (swimFuel fuel pq k).comparator = pq.comparator ∧
        (swimFuel fuel pq k).items.length = pq.items.length ∧
        ((swimFuel fuel pq k).items : Multiset (Option (Item α))) =
          (pq.items : Multiset (Option (Item α))) := by
  intro fuel
  induction fuel with
  | zero =>
    intro pq k hf _ _ hk _ _
    omega
  | succ fuel ih =>
    intro pq k hf hcmp hwf hk hkn hinv
    by_cases h : 1 < k ∧ pq.less (k / 2) k = true
    · have hstep : swimFuel (fuel + 1) pq k = swimFuel fuel (pq.exch (k / 2) k) (k / 2) := by
        simp only [swimFuel, if_pos h]
      rw [hstep]
      have hlen := hwf.1
      have hsz : pq.size = pq.elemsCount := rfl
      have hkL : k < pq.items.length := by omega
      have hpL : k / 2 < pq.items.length := by omega
      have hwf' := pq.wf_exch (k / 2) k hwf (by omega) (by omega) (by omega) hkn
      have hcmp' : cmpOK (pq.exch (k / 2) k).comparator := hcmp
      have hinv' := pq.swimInv_exch k hcmp hwf h.1 hkn hinv h.2
      have hsz' : (pq.exch (k / 2) k).size = pq.size := rfl
      obtain ⟨w1, w2, w3, w4, w5, w6⟩ :=
        ih (pq.exch (k / 2) k) (k / 2) (by omega) hcmp' hwf' (by omega)
          (by rw [hsz']; omega) hinv'
      refine ⟨w1, w2, ?_, w4, ?_, ?_⟩
      · rw [w3, PQueue.elemsCount_exch]
      · rw [w5, PQueue.length_exch]
      · rw [w6, pq.ms_exch _ _ hpL hkL]
    · have hstep : swimFuel (fuel + 1) pq k = pq := by
        simp only [swimFuel, if_neg h]
      rw [hstep]
      exact ⟨hwf, pq.swimInv_heapProp k hinv h, rfl, rfl, rfl, rfl⟩

theorem PQueue.swim_spec {α : Type} (pq : PQueue α) (k : Nat)
    (hcmp : cmpOK pq.comparator) (hwf : pq.wf) (hk : 1 ≤ k) (hkn : k ≤ pq.size)
    (hinv : pq.swimInv k) :
    (pq.swim k).wf ∧ (pq.swim k).heapProp ∧
      (pq.swim k).elemsCount = pq.elemsCount ∧
      (pq.swim k).comparator = pq.comparator ∧
      (pq.swim k).items.length = pq.items.length ∧
      ((pq.swim k).items : Multiset (Option (Item α))) =
        (pq.items : Multiset (Option (Item α))) := by
  rw [← swim_eq_fuel k pq k (Nat.le_refl k)]
  exact swimFuel_spec k pq k (Nat.le_refl k) hcmp hwf hk hkn hinv

/-! ### Verification of `sink` -/

/-- Invariant maintained while sifting slot `k` down: every parent edge
holds except possibly the two leaving `k`, and the parent of `k` (when
`k` is not the root) is not dominated by either child of `k`. -/
def PQueue.sinkInv {α : Type} (pq : PQueue α) (k : Nat) : Prop :=
  (∀ m, 2 ≤ m → m ≤ pq.size → m / 2 ≠ k → pq.less (m / 2) m = false) ∧
  (∀ c, (c = 2 * k ∨ c = 2 * k + 1) → c ≤ pq.size → 2 ≤ k → pq.less (k / 2) c = false)

/-- The selected child `j` is not dominated by its sibling. -/
theorem PQueue.sink_sibling {α : Type} (pq : PQueue α) (k j : Nat) (hcmp : cmpOK pq.comparator)
    (hjdef : j = if 2 * k < pq.size ∧ pq.less (2 * k) (2 * k + 1) = true
        then 2 * k + 1 else 2 * k) :
    ∀ s, (s = 2 * k ∨ s = 2 * k + 1) → s ≤ pq.size → s ≠ j → pq.less j s = false := by
  intro s hs hsn hsj
  by_cases hcond : 2 * k < pq.size ∧ pq.less (2 * k) (2 * k + 1) = true
  · rw [if_pos hcond] at hjdef
    subst hjdef
    have hs2 : s = 2 * k := by omega
    subst hs2
    exact pq.less_asymm hcmp _ _ hcond.2
  · rw [if_neg hcond] at hjdef
    subst hjdef
    have hs2 : s = 2 * k + 1 := by omega
    subst hs2
    cases hb : pq.less (2 * k) (2 * k + 1)
    · rfl
    · exact absurd ⟨by omega, hb⟩ hcond

theorem PQueue.sinkInv_exch {α : Type} (pq : PQueue α) (k j : Nat) (hcmp : cmpOK pq.comparator)
    (hwf : pq.wf) (hk : 1 ≤ k) (h2k : 2 * k ≤ pq.size)
    (hj_cases : j = 2 * k ∨ j = 2 * k + 1) (hjn : j ≤ pq.size)
    (hsib : ∀ s, (s = 2 * k ∨ s = 2 * k + 1) → s ≤ pq.size → s ≠ j → pq.less j s = false)
    (hinv : pq.sinkInv k) (hless : pq.less k j = true) :
    (pq.exch k j).sinkInv j := by
  have hlen := hwf.1
  have hsz : pq.size = pq.elemsCount := rfl
  have hkL : k < pq.items.length := by omega
  have hjL : j < pq.items.length := by omega
  constructor
  · intro m h2m hmn hm2j
    have hmn' : m ≤ pq.size := hmn
    rw [pq.less_exch k j (m / 2) m hkL hjL]
    by_cases hD : m = j
    · have e1 : (if m / 2 = k then j else if m / 2 = j then k else m / 2) = j := by
        rw [if_pos (by omega)]
      have e2 : (if m = k then j else if m = j then k else m) = k := by
        rw [if_neg (by omega), if_pos hD]
      rw [e1, e2]
      exact pq.less_asymm hcmp _ _ hless
    · by_cases hE : m = k
      · have e1 : (if m / 2 = k then j else if m / 2 = j then k else m / 2) = m / 2 := by
          rw [if_neg (by omega), if_neg (by omega)]
        have e2 : (if m = k then j else if m = j then k else m) = j := by
          rw [if_pos hE]
        rw [e1, e2]
        have h := hinv.2 j hj_cases hjn (by omega)
        rw [show m / 2 = k / 2 from by omega]
        exact h
      · by_cases hF : m / 2 = k
        · -- m is the sibling of the selected child
          have e1 : (if m / 2 = k then j else if m / 2 = j then k else m / 2) = j := by
            rw [if_pos hF]
          have e2 : (if m = k then j else if m = j then k else m) = m := by
            rw [if_neg hE, if_neg hD]
          rw [e1, e2]
          exact hsib m (by omega) hmn' hD
        · have e1 : (if m / 2 = k then j else if m / 2 = j then k else m / 2) = m / 2 := by
            rw [if_neg hF, if_neg hm2j]
          have e2 : (if m = k then j else if m = j then k else m) = m := by
            rw [if_neg hE, if_neg hD]
          rw [e1, e2]
          exact hinv.1 m h2m hmn' hF
  · intro c hc hcn h2j
    have hcn' : c ≤ pq.size := hcn
    rw [pq.less_exch k j (j / 2) c hkL hjL]
    have e1 : (if j / 2 = k then j else if j / 2 = j then k else j / 2) = j := by
      rw [if_pos (by omega)]
    have e2 : (if c = k then j else if c = j then k else c) = c := by
      rw [if_neg (by omega), if_neg (by omega)]
    rw [e1, e2]
    have h := hinv.1 c (by omega) hcn' (by omega)
    rw [show c / 2 = j from by omega] at h
    exact h

/-- When slot `k` has no live children the sift-down invariant already
gives the full heap invariant. -/
theorem PQueue.sinkInv_heapProp_far {α : Type} (pq : PQueue α) (k : Nat)
    (hfar : pq.size < 2 * k) (hinv : pq.sinkInv k) : pq.heapProp := by
  apply pq.heapProp_of_parent
  intro m h2 hn
  by_cases hF : m / 2 = k
  · omega
  · exact hinv.1 m h2 hn hF

/-- When the selected child fails to dominate slot `k`, the full heap
invariant holds. -/
theorem PQueue.sinkInv_heapProp_stop {α : Type} (pq : PQueue α) (k j : Nat)
    (hcmp : cmpOK pq.comparator) (hwf : pq.wf) (hk : 1 ≤ k) (h2k : 2 * k ≤ pq.size)
    (hj_cases : j = 2 * k ∨ j = 2 * k + 1) (hjn : j ≤ pq.size)
    (hsib : ∀ s, (s = 2 * k ∨ s = 2 * k + 1) → s ≤ pq.size → s ≠ j → pq.less j s = false)
    (hinv : pq.sinkInv k) (hless : pq.less k j = false) : pq.heapProp := by
  apply pq.heapProp_of_parent
  intro m h2 hn
  by_cases hF : m / 2 = k
  · rw [hF]
    by_cases hD : m = j
    · rw [hD]
      exact hless
    · obtain ⟨ik, hik⟩ := pq.wf_some hwf k (by omega) (by omega)
      obtain ⟨ij, hij⟩ := pq.wf_some hwf j (by omega) hjn
      obtain ⟨im, him⟩ := pq.wf_some hwf m (by omega) hn
      exact pq.less_trans_false hcmp k j m ik ij im hik hij him hless
        (hsib m (by omega) hn hD)
  · exact hinv.1 m h2 hn hF

theorem sinkFuel_spec {α : Type} :
    ∀ (fuel : Nat) (pq : PQueue α) (k : Nat), pq.size + 1 - k ≤ fuel →
      cmpOK pq.comparator → pq.wf → 1 ≤ k → pq.sinkInv k →
      (sinkFuel fuel pq k).wf ∧ (sinkFuel fuel pq k).heapProp ∧
        (sinkFuel fuel pq k).elemsCount = pq.elemsCount ∧
        (sinkFuel fuel pq k).comparator = pq.comparator ∧
        (sinkFuel fuel pq k).items.length = pq.items.length ∧
        ((sinkFuel fuel pq k).items : Multiset (Option (Item α))) =
          (pq.items : Multiset (Option (Item α))) := by
  intro fuel
  induction fuel with
  | zero =>
    intro pq k hf hcmp hwf hk hinv
    have hfar : pq.size < 2 * k := by omega
    exact ⟨hwf, pq.sinkInv_heapProp_far k hfar hinv, rfl, rfl, rfl, rfl⟩
  | succ fuel ih =>
    intro pq k hf hcmp hwf hk hinv
    by_cases h : 0 < k ∧ 2 * k ≤ pq.size
    · have hj_cases : (if 2 * k < pq.size ∧ pq.less (2 * k) (2 * k + 1) = true
          then 2 * k + 1 else 2 * k) = 2 * k ∨
          (if 2 * k < pq.size ∧ pq.less (2 * k) (2 * k + 1) = true
          then 2 * k + 1 else 2 * k) = 2 * k + 1 := by
        split_ifs
        · right; rfl
        · left; rfl
      have hjn : (if 2 * k < pq.size ∧ pq.less (2 * k) (2 * k + 1) = true
          then 2 * k + 1 else 2 * k) ≤ pq.size := by
        split_ifs with hcond
        · omega
        · exact h.2
      have hsib := pq.sink_sibling k _ hcmp rfl
      by_cases hl : pq.less k (if 2 * k < pq.size ∧ pq.less (2 * k) (2 * k + 1) = true
          then 2 * k + 1 else 2 * k) = true
      · have hstep : sinkFuel (fuel + 1) pq k =
            sinkFuel fuel (pq.exch k (if 2 * k < pq.size ∧ pq.less (2 * k) (2 * k + 1) = true
              then 2 * k + 1 else 2 * k))
              (if 2 * k < pq.size ∧ pq.less (2 * k) (2 * k + 1) = true
              then 2 * k + 1 else 2 * k) := by
          simp only [sinkFuel, if_pos h, if_pos hl]
        rw [hstep]
        have hlen := hwf.1
        have hsz : pq.size = pq.elemsCount := rfl
        have hkL : k < pq.items.length := by omega
        have hjL : (if 2 * k < pq.size ∧ pq.less (2 * k) (2 * k + 1) = true
            then 2 * k + 1 else 2 * k) < pq.items.length := by
          rcases hj_cases with hc | hc <;> omega
        have hwf' := pq.wf_exch k _ hwf hk (by omega) (by omega) hjn
        have hinv' := pq.sinkInv_exch k _ hcmp hwf hk h.2 hj_cases hjn hsib hinv hl
        obtain ⟨w1, w2, w3, w4, w5, w6⟩ := ih
          (pq.exch k (if 2 * k < pq.size ∧ pq.less (2 * k) (2 * k + 1) = true
            then 2 * k + 1 else 2 * k))
          (if 2 * k < pq.size ∧ pq.less (2 * k) (2 * k + 1) = true then 2 * k + 1 else 2 * k)
          (by
            have hsz2 : (pq.exch k (if 2 * k < pq.size ∧ pq.less (2 * k) (2 * k + 1) = true
                then 2 * k + 1 else 2 * k)).size = pq.size := rfl
            rw [hsz2]
            rcases hj_cases with hc | hc <;> omega)
          hcmp hwf' (by rcases hj_cases with hc | hc <;> omega) hinv'
        refine ⟨w1, w2, ?_, w4, ?_, ?_⟩
        · rw [w3, PQueue.elemsCount_exch]
        · rw [w5, PQueue.length_exch]
        · rw [w6, pq.ms_exch _ _ hkL hjL]
      · have hstep : sinkFuel (fuel + 1) pq k = pq := by
          simp only [sinkFuel, if_pos h]
          rw [if_neg hl]
        rw [hstep]
        have hlf : pq.less k (if 2 * k < pq.size ∧ pq.less (2 * k) (2 * k + 1) = true
            then 2 * k + 1 else 2 * k) = false := by
          cases hb : pq.less k (if 2 * k < pq.size ∧ pq.less (2 * k) (2 * k + 1) = true
              then 2 * k + 1 else 2 * k)
          · rfl
          · exact absurd hb hl
        exact ⟨hwf, pq.sinkInv_heapProp_stop k _ hcmp hwf hk h.2 hj_cases hjn hsib hinv hlf,
          rfl, rfl, rfl, rfl⟩
    · have hstep : sinkFuel (fuel + 1) pq k = pq := by
        simp only [sinkFuel, if_neg h]
      rw [hstep]
      have hfar : pq.size < 2 * k := by omega
      exact ⟨hwf, pq.sinkInv_heapProp_far k hfar hinv, rfl, rfl, rfl, rfl⟩

theorem PQueue.sink_spec {α : Type} (pq : PQueue α) (k : Nat)
    (hcmp : cmpOK pq.comparator) (hwf : pq.wf) (hk : 1 ≤ k) (hinv : pq.sinkInv k) :
    (pq.sink k).wf ∧ (pq.sink k).heapProp ∧
      (pq.sink k).elemsCount = pq.elemsCount ∧
      (pq.sink k).comparator = pq.comparator ∧
      (pq.sink k).items.length = pq.items.length ∧
      ((pq.sink k).items : Multiset (Option (Item α))) =
        (pq.items : Multiset (Option (Item α))) := by
  rw [← sink_eq_fuel (pq.size + 1) pq k (by omega)]
  exact sinkFuel_spec (pq.size + 1) pq k (by omega) hcmp hwf hk hinv

/-! ### Specifications of the exported operations -/

theorem getD_append_lt {β : Type} (l : List β) (x d : β) (t : Nat) (h : t < l.length) :
    (l ++ [x]).getD t d = l.getD t d := by
  rw [List.getD_eq_getElem?_getD, List.getD_eq_getElem?_getD, List.getElem?_append_left h]

theorem getD_append_eq {β : Type} (l : List β) (x d : β) :
    (l ++ [x]).getD l.length d = x := by
  rw [List.getD_eq_getElem?_getD, List.getElem?_append_right (Nat.le_refl _)]
  simp

theorem getD_take_lt {β : Type} (l : List β) (n t : Nat) (d : β) (h : t < n) :
    (l.take n).getD t d = l.getD t d := by
  rw [List.getD_eq_getElem?_getD, List.getD_eq_getElem?_getD, List.getElem?_take_of_lt h]

/-- Full specification of `Push`: it preserves well-formedness and the
heap invariant, grows the live count and the backing slice by exactly
one, never changes the comparator, and adds exactly the new entry to the
slice contents. -/
theorem PQueue.push_spec {α : Type} (pq : PQueue α) (v : α) (p q : Nat)
    (hcmp : cmpOK pq.comparator) (hwf : pq.wf) (hheap : pq.heapProp) :
    (pq.push v p q).wf ∧ (pq.push v p q).heapProp ∧
      (pq.push v p q).elemsCount = pq.elemsCount + 1 ∧
      (pq.push v p q).comparator = pq.comparator ∧
      (pq.push v p q).items.length = pq.items.length + 1 ∧
      ((pq.push v p q).items : Multiset (Option (Item α))) =
        (pq.items : Multiset (Option (Item α))) + {some ⟨v, p, q⟩} := by
  have hlen := hwf.1
  have hsz : pq.size = pq.elemsCount := rfl
  have hpush : pq.push v p q =
      (PQueue.mk (pq.items ++ [some ⟨v, p, q⟩]) (pq.elemsCount + 1) pq.comparator).swim
        (pq.elemsCount + 1) := rfl
  set pq1 : PQueue α :=
    PQueue.mk (pq.items ++ [some ⟨v, p, q⟩]) (pq.elemsCount + 1) pq.comparator with hpq1
  have hlen1 : pq1.items.length = pq.items.length + 1 := by
    rw [hpq1]
    simp
  have hget1 : ∀ t, t < pq.items.length → pq1.getItem t = pq.getItem t := by
    intro t ht
    rw [hpq1]
    exact getD_append_lt pq.items _ none t ht
  have hgetNew : pq1.getItem (pq.elemsCount + 1) = some ⟨v, p, q⟩ := by
    rw [hpq1]
    show (pq.items ++ [some (⟨v, p, q⟩ : Item α)]).getD (pq.elemsCount + 1) none
        = some (⟨v, p, q⟩ : Item α)
    rw [← hlen]
    exact getD_append_eq pq.items _ none
  have hwf1 : pq1.wf := by
    refine ⟨by rw [hlen1, hlen], ?_, ?_⟩
    · rw [hget1 0 (by omega)]
      exact hwf.2.1
    · intro i h1 h2
      by_cases hi : i ≤ pq.elemsCount
      · rw [hget1 i (by omega)]
        exact hwf.2.2 i h1 hi
      · have : i = pq.elemsCount + 1 := by
          have : pq1.elemsCount = pq.elemsCount + 1 := rfl
          omega
        rw [this, hgetNew]
        rfl
  have hless1 : ∀ a b, a < pq.items.length → b < pq.items.length →
      pq1.less a b = pq.less a b := by
    intro a b ha hb
    unfold PQueue.less
    rw [hget1 a ha, hget1 b hb]
  have hinv1 : pq1.swimInv (pq.elemsCount + 1) := by
    constructor
    · intro j h2j hjn hjp
      have hjn' : j ≤ pq.elemsCount + 1 := hjn
      have hjc : j ≤ pq.elemsCount := by omega
      rw [hless1 (j / 2) j (by omega) (by omega)]
      exact pq.heapProp_parent hheap j h2j (by omega)
    · intro c hc hcn h2k
      have hcn' : c ≤ pq.elemsCount + 1 := hcn
      omega
  have hkn1 : pq.elemsCount + 1 ≤ pq1.size := by
    have : pq1.size = pq.elemsCount + 1 := rfl
    omega
  obtain ⟨w1, w2, w3, w4, w5, w6⟩ :=
    pq1.swim_spec (pq.elemsCount + 1) hcmp hwf1 (by omega) hkn1 hinv1
  rw [hpush]
  refine ⟨w1, w2, ?_, w4, ?_, ?_⟩
  · rw [w3]
  · rw [w5, hlen1]
  · rw [w6, hpq1]
    show ((pq.items ++ [some ⟨v, p, q⟩] : List (Option (Item α))) : Multiset (Option (Item α)))
        = (pq.items : Multiset (Option (Item α))) + {some ⟨v, p, q⟩}
    rw [← Multiset.coe_add]
    rfl

/-- The root of a well-formed heap is dominated by no live entry. -/
theorem PQueue.root_min {α : Type} (pq : PQueue α) (hcmp : cmpOK pq.comparator) (hwf : pq.wf)
    (hheap : pq.heapProp) :
    ∀ i, 2 ≤ i → i ≤ pq.size → pq.less 1 i = false := by
  intro i
  induction i using Nat.strong_induction_on with
  | _ i ih =>
    intro h2 hn
    have hpar : pq.less (i / 2) i = false := pq.heapProp_parent hheap i h2 hn
    by_cases h1 : i / 2 = 1
    · rw [h1] at hpar
      exact hpar
    · have h2p : 2 ≤ i / 2 := by omega
      have hrec := ih (i / 2) (by omega) h2p (by omega)
      obtain ⟨i1, hi1⟩ := pq.wf_some hwf 1 (by omega) (by omega)
      obtain ⟨ipr, hipr⟩ := pq.wf_some hwf (i / 2) (by omega) (by omega)
      obtain ⟨ii, hii⟩ := pq.wf_some hwf i (by omega) hn
      exact pq.less_trans_false hcmp 1 (i / 2) i i1 ipr ii hi1 hipr hii hrec hpar

theorem PQueue.pop_empty {α : Type} (pq : PQueue α) (h : pq.size = 0) : pq.pop = (none, pq) := by
  unfold PQueue.pop
  rw [if_pos (by omega)]

theorem PQueue.head_empty {α : Type} (pq : PQueue α) (h : pq.size = 0) : pq.head = none := by
  unfold PQueue.head
  rw [if_pos (by omega)]

/-- Full specification of `Pop` on a non-empty well-formed heap: it
returns the root entry, which no other live entry dominates; the new
state is again a well-formed heap; the live count and the backing slice
shrink by exactly one; and the slice contents lose exactly the returned
entry. -/
theorem PQueue.pop_spec {α : Type} (pq : PQueue α) (hcmp : cmpOK pq.comparator) (hwf : pq.wf)
    (hheap : pq.heapProp) (hne : 0 < pq.size) :
    ∃ it, pq.getItem 1 = some it ∧
      (pq.pop).1 = some it.value ∧
      (∀ i, 2 ≤ i → i ≤ pq.size → pq.less 1 i = false) ∧
      (pq.pop).2.wf ∧ (pq.pop).2.heapProp ∧
      (pq.pop).2.elemsCount = pq.elemsCount - 1 ∧
      (pq.pop).2.comparator = pq.comparator ∧
      (pq.pop).2.items.length = pq.items.length - 1 ∧
      (pq.items : Multiset (Option (Item α))) =
        ((pq.pop).2.items : Multiset (Option (Item α))) + {some it} := by
  have hlen := hwf.1
  have hsz : pq.size = pq.elemsCount := rfl
  obtain ⟨it, hit⟩ := pq.wf_some hwf 1 (by omega) (by omega)
  have hpop : pq.pop = ((pq.getItem 1).map Item.value,
      (PQueue.mk ((pq.exch 1 pq.size).items.take pq.size) (pq.elemsCount - 1)
        pq.comparator).sink 1) := by
    unfold PQueue.pop
    rw [if_neg (by omega)]
    rfl
  set pq2 : PQueue α := PQueue.mk ((pq.exch 1 pq.size).items.take pq.size)
      (pq.elemsCount - 1) pq.comparator with hpq2
  have h1L : 1 < pq.items.length := by omega
  have hnL : pq.size < pq.items.length := by omega
  have hlenx : (pq.exch 1 pq.size).items.length = pq.items.length :=
    pq.length_exch 1 pq.size
  have hlen2 : pq2.items.length = pq.elemsCount := by
    rw [hpq2]
    show ((pq.exch 1 pq.size).items.take pq.size).length = pq.elemsCount
    rw [List.length_take, hlenx]
    omega
  have hget2 : ∀ t, 0 ≤ t → t < pq.size → t ≠ 1 → pq2.getItem t = pq.getItem t := by
    intro t _ htn ht1
    rw [hpq2]
    show ((pq.exch 1 pq.size).items.take pq.size).getD t none = pq.getItem t
    rw [getD_take_lt _ _ _ _ htn]
    show (pq.exch 1 pq.size).getItem t = pq.getItem t
    rw [pq.getItem_exch 1 pq.size t h1L hnL]
    rw [if_neg ht1, if_neg (by omega)]
  have hget21 : 0 < pq.elemsCount - 1 → pq2.getItem 1 = pq.getItem pq.size := by
    intro hbig
    rw [hpq2]
    show ((pq.exch 1 pq.size).items.take pq.size).getD 1 none = pq.getItem pq.size
    rw [getD_take_lt _ _ _ _ (by omega)]
    show (pq.exch 1 pq.size).getItem 1 = pq.getItem pq.size
    rw [pq.getItem_exch 1 pq.size 1 h1L hnL]
    rw [if_pos rfl]
  have hwf2 : pq2.wf := by
    have hc2 : pq2.elemsCount = pq.elemsCount - 1 := rfl
    refine ⟨by rw [hlen2, hc2]; omega, ?_, ?_⟩
    · rw [hget2 0 (by omega) (by omega) (by omega)]
      exact hwf.2.1
    · intro i h1 h2
      have h2' : i ≤ pq.elemsCount - 1 := h2
      by_cases hi1 : i = 1
      · rw [hi1, hget21 (by omega)]
        have := hwf.2.2 pq.size (by omega) (by omega)
        exact this
      · rw [hget2 i (by omega) (by omega) hi1]
        exact hwf.2.2 i h1 (by omega)
  have hless2 : ∀ a b, a ≠ 1 → a < pq.size → b ≠ 1 → b < pq.size →
      pq2.less a b = pq.less a b := by
    intro a b ha1 han hb1 hbn
    unfold PQueue.less
    rw [hget2 a (by omega) han ha1, hget2 b (by omega) hbn hb1]
  have hinv2 : pq2.sinkInv 1 := by
    constructor
    · intro m h2m hmn hm2
      have hmn' : m ≤ pq.elemsCount - 1 := hmn
      have hm4 : 4 ≤ m := by omega
      rw [hless2 (m / 2) m (by omega) (by omega) (by omega) (by omega)]
      exact pq.heapProp_parent hheap m h2m (by omega)
    · intro c hc hcn h21
      omega
  obtain ⟨w1, w2, w3, w4, w5, w6⟩ := pq2.sink_spec 1 hcmp hwf2 (by omega) hinv2
  refine ⟨it, hit, ?_, pq.root_min hcmp hwf hheap, ?_, ?_, ?_, ?_, ?_, ?_⟩
  · rw [hpop]
    show (pq.getItem 1).map Item.value = some it.value
    rw [hit]
    rfl
  · rw [hpop]
    exact w1
  · rw [hpop]
    exact w2
  · rw [hpop]
    show (pq2.sink 1).elemsCount = pq.elemsCount - 1
    rw [w3]
  · rw [hpop]
    exact w4
  · rw [hpop]
    show (pq2.sink 1).items.length = pq.items.length - 1
    rw [w5, hlen2]
    omega
  · rw [hpop]
    show (pq.items : Multiset (Option (Item α))) =
        ((pq2.sink 1).items : Multiset (Option (Item α))) + {some it}
    rw [w6]
    have hms1 : ((pq.exch 1 pq.size).items : Multiset (Option (Item α))) =
        (pq.items : Multiset (Option (Item α))) := pq.ms_exch 1 pq.size h1L hnL
    have hsplit : (pq.exch 1 pq.size).items =
        (pq.exch 1 pq.size).items.take pq.size ++ (pq.exch 1 pq.size).items.drop pq.size :=
      (List.take_append_drop _ _).symm
    have hlast : (pq.exch 1 pq.size).items.drop pq.size = [some it] := by
      rw [List.drop_eq_getElem_cons (by omega)]
      have hnil : (pq.exch 1 pq.size).items.drop (pq.size + 1) = [] := by
        apply List.drop_eq_nil_of_le
        omega
      rw [hnil]
      have hgn : (pq.exch 1 pq.size).items[pq.size] = some it := by
        have hgi : (pq.exch 1 pq.size).getItem pq.size = some it := by
          rw [pq.getItem_exch 1 pq.size pq.size h1L hnL]
          by_cases hone : pq.size = 1
          · rw [if_pos hone, hone]
            exact hone ▸ hit
          · rw [if_neg hone, if_pos rfl]
            exact hit
        rw [← hgi]
        exact ((pq.exch 1 pq.size).getItem_lt pq.size (by omega)).symm
      rw [hgn]
    rw [← hms1, hsplit, hlast]
    rw [← Multiset.coe_add]
    rfl

/-! ### Count lemmas (hypothesis-free) -/

theorem swimFuel_elemsCount {α : Type} :
    ∀ (fuel : Nat) (pq : PQueue α) (k : Nat), (swimFuel fuel pq k).elemsCount = pq.elemsCount := by
  intro fuel
  induction fuel with
  | zero => intro pq k; rfl
  | succ fuel ih =>
    intro pq k
    by_cases h : 1 < k ∧ pq.less (k / 2) k = true
    · have hstep : swimFuel (fuel + 1) pq k = swimFuel fuel (pq.exch (k / 2) k) (k / 2) := by
        simp only [swimFuel, if_pos h]
      rw [hstep, ih]
      rfl
    · have hstep : swimFuel (fuel + 1) pq k = pq := by
        simp only [swimFuel, if_neg h]
      rw [hstep]

theorem sinkFuel_elemsCount {α : Type} :
    ∀ (fuel : Nat) (pq : PQueue α) (k : Nat), (sinkFuel fuel pq k).elemsCount = pq.elemsCount := by
  intro fuel
  induction fuel with
  | zero => intro pq k; rfl
  | succ fuel ih =>
    intro pq k
    by_cases h : 0 < k ∧ 2 * k ≤ pq.size
    · by_cases hl : pq.less k (if 2 * k < pq.size ∧ pq.less (2 * k) (2 * k + 1) = true
          then 2 * k + 1 else 2 * k) = true
      · have hstep : sinkFuel (fuel + 1) pq k =
            sinkFuel fuel (pq.exch k (if 2 * k < pq.size ∧ pq.less (2 * k) (2 * k + 1) = true
              then 2 * k + 1 else 2 * k))
              (if 2 * k < pq.size ∧ pq.less (2 * k) (2 * k + 1) = true
              then 2 * k + 1 else 2 * k) := by
          simp only [sinkFuel, if_pos h, if_pos hl]
        rw [hstep, ih]
        rfl
      · have hstep : sinkFuel (fuel + 1) pq k = pq := by
          simp only [sinkFuel, if_pos h]
          rw [if_neg hl]
        rw [hstep]
    · have hstep : sinkFuel (fuel + 1) pq k = pq := by
        simp only [sinkFuel, if_neg h]
      rw [hstep]

theorem PQueue.swim_elemsCount {α : Type} (pq : PQueue α) (k : Nat) :
    (pq.swim k).elemsCount = pq.elemsCount := by
  rw [← swim_eq_fuel k pq k (Nat.le_refl k)]
  exact swimFuel_elemsCount k pq k

theorem PQueue.sink_elemsCount {α : Type} (pq : PQueue α) (k : Nat) :
    (pq.sink k).elemsCount = pq.elemsCount := by
  rw [← sink_eq_fuel (pq.size + 1) pq k (by omega)]
  exact sinkFuel_elemsCount (pq.size + 1) pq k

theorem PQueue.push_elemsCount {α : Type} (pq : PQueue α) (v : α) (p q : Nat) :
    (pq.push v p q).elemsCount = pq.elemsCount + 1 := by
  have h : pq.push v p q = (PQueue.mk (pq.items ++ [some ⟨v, p, q⟩]) (pq.elemsCount + 1)
      pq.comparator).swim (pq.elemsCount + 1) := rfl
  rw [h, PQueue.swim_elemsCount]

theorem PQueue.pop_elemsCount {α : Type} (pq : PQueue α) (h : 0 < pq.size) :
    ((pq.pop).2).elemsCount = pq.elemsCount - 1 := by
  have hpop : (pq.pop).2 = (PQueue.mk ((pq.exch 1 pq.size).items.take pq.size)
      (pq.elemsCount - 1) pq.comparator).sink 1 := by
    unfold PQueue.pop
    rw [if_neg (by omega)]
    rfl
  rw [hpop, PQueue.sink_elemsCount]

/-! ### Reachable states -/

/-- An abstract mutating operation on a queue. -/
inductive Op (α : Type) where
  | push (v : α) (price quantity : Nat)
  | pop

def applyOp {α : Type} (pq : PQueue α) : Op α → PQueue α
  | Op.push v p q => pq.push v p q
  | Op.pop => (pq.pop).2

def applyOps {α : Type} (pq : PQueue α) (ops : List (Op α)) : PQueue α :=
  ops.foldl applyOp pq

theorem applyOps_inv {α : Type} :
    ∀ (ops : List (Op α)) (pq : PQueue α), cmpOK pq.comparator → pq.wf → pq.heapProp →
      (applyOps pq ops).wf ∧ (applyOps pq ops).heapProp ∧
        (applyOps pq ops).comparator = pq.comparator := by
  intro ops
  induction ops with
  | nil =>
    intro pq hcmp hwf hheap
    exact ⟨hwf, hheap, rfl⟩
  | cons op rest ih =>
    intro pq hcmp hwf hheap
    have hstep : applyOps pq (op :: rest) = applyOps (applyOp pq op) rest := rfl
    rw [hstep]
    cases op with
    | push v p q =>
      obtain ⟨w1, w2, _, w4, _, _⟩ := pq.push_spec v p q hcmp hwf hheap
      obtain ⟨u1, u2, u3⟩ := ih (pq.push v p q) (by rw [w4]; exact hcmp) w1 w2
      refine ⟨u1, u2, ?_⟩
      show (applyOps (pq.push v p q) rest).comparator = pq.comparator
      rw [u3, w4]
    | pop =>
      by_cases hz : pq.size = 0
      · have hid : applyOp pq Op.pop = pq := by
          show (pq.pop).2 = pq
          rw [pq.pop_empty hz]
        rw [hid]
        exact ih pq hcmp hwf hheap
      · obtain ⟨it, h1, h2, h3, h4, h5, h6, h7, h8, h9⟩ :=
          pq.pop_spec hcmp hwf hheap (by omega)
        obtain ⟨u1, u2, u3⟩ := ih (pq.pop).2 (by rw [h7]; exact hcmp) h4 h5
        refine ⟨u1, u2, ?_⟩
        show (applyOps (pq.pop).2 rest).comparator = pq.comparator
        rw [u3, h7]

theorem NewBidPQueue_wf : ∀ t, (NewBidPQueue t).wf := by
  intro t
  refine ⟨rfl, rfl, ?_⟩
  intro i h1 h2
  have h3 : (NewBidPQueue t).elemsCount = 0 := rfl
  omega

theorem NewAskPQueue_wf : ∀ t, (NewAskPQueue t).wf := by
  intro t
  refine ⟨rfl, rfl, ?_⟩
  intro i h1 h2
  have h3 : (NewAskPQueue t).elemsCount = 0 := rfl
  omega

theorem NewBidPQueue_heapProp : ∀ t, (NewBidPQueue t).heapProp := by
  intro t k c hk hc hcn
  have h : (NewBidPQueue t).size = 0 := rfl
  omega

theorem NewAskPQueue_heapProp : ∀ t, (NewAskPQueue t).heapProp := by
  intro t k c hk hc hcn
  have h : (NewAskPQueue t).size = 0 := rfl
  omega

theorem NewBidPQueue_cmpOK : ∀ t, cmpOK (NewBidPQueue t).comparator := by
  intro t
  cases t
  · exact cmpOK_bid
  · exact cmpOK_ask

theorem NewAskPQueue_cmpOK : ∀ t, cmpOK (NewAskPQueue t).comparator := by
  intro t
  cases t
  · exact cmpOK_bid
  · exact cmpOK_ask

/-! ### Drain helpers -/

def pushAll {α : Type} (pq : PQueue α) (xs : List (α × Nat × Nat)) : PQueue α :=
  xs.foldl (fun acc e => acc.push e.1 e.2.1 e.2.2) pq

def popNQ {α : Type} (pq : PQueue α) : Nat → PQueue α
  | 0 => pq
  | n + 1 => popNQ (pq.pop).2 n

theorem pushAll_elemsCount {α : Type} :
    ∀ (xs : List (α × Nat × Nat)) (pq : PQueue α),
      (pushAll pq xs).elemsCount = pq.elemsCount + xs.length := by
  intro xs
  induction xs with
  | nil => intro pq; rfl
  | cons x rest ih =>
    intro pq
    have hstep : pushAll pq (x :: rest) = pushAll (pq.push x.1 x.2.1 x.2.2) rest := rfl
    rw [hstep, ih, PQueue.push_elemsCount]
    simp [List.length_cons]
    omega

theorem popNQ_drain {α : Type} :
    ∀ (n : Nat) (pq : PQueue α), pq.elemsCount = n → (popNQ pq n).elemsCount = 0 := by
  intro n
  induction n with
  | zero => intro pq h; exact h
  | succ n ih =>
    intro pq h
    have hstep : popNQ pq (n + 1) = popNQ (pq.pop).2 n := rfl
    rw [hstep]
    apply ih
    rw [pq.pop_elemsCount (by show 0 < pq.elemsCount; omega), h]
    omega

/-! ### Claim theorems for the priority-queue engine -/

/-- C2: for all prices and quantities, the high-price-first comparator
returns true (B dominates A) exactly when `pB > pA`, or `pA = pB` and
`qB > qA`; the low-price-first comparator returns true exactly when
`pB < pA`, or `pA = pB` and `qB > qA`; and each comparator returns false
on an equal pair (irreflexivity). -/
theorem comparator_policies_correct (pA qA pB qB : Nat) :
    (bidComparator pA qA pB qB = true ↔ (pB > pA ∨ (pA = pB ∧ qB > qA))) ∧
    (askComparator pA qA pB qB = true ↔ (pB < pA ∨ (pA = pB ∧ qB > qA))) ∧
    bidComparator pA qA pA qA = false ∧ askComparator pA qA pA qA = false := by
  refine ⟨?_, ?_, ?_, ?_⟩
  · unfold bidComparator
    split_ifs with h1 h2 <;> simp <;> omega
  · unfold askComparator
    split_ifs with h1 h2 <;> simp <;> omega
  · unfold bidComparator
    split_ifs with h1
    · omega
    · simp
  · unfold askComparator
    split_ifs with h1
    · omega
    · simp

/-- C3: after every sequence of push and pop-best operations applied to a
newly constructed queue (either payload type, either ordering mode), the
heap invariant holds: for every node `k ≥ 1` and each live child `2k` or
`2k+1`, the bound comparator does not judge the child as dominating the
parent. -/
theorem heap_invariant_all_ops (t : PQType) (opsB : List (Op Bid)) (opsA : List (Op Ask)) :
    (applyOps (NewBidPQueue t) opsB).heapProp ∧ (applyOps (NewAskPQueue t) opsA).heapProp :=
  ⟨(applyOps_inv opsB (NewBidPQueue t) (NewBidPQueue_cmpOK t) (NewBidPQueue_wf t)
      (NewBidPQueue_heapProp t)).2.1,
   (applyOps_inv opsA (NewAskPQueue t) (NewAskPQueue_cmpOK t) (NewAskPQueue_wf t)
      (NewAskPQueue_heapProp t)).2.1⟩

/-- C5: on a non-empty well-formed queue satisfying the heap invariant,
pop-best returns the root entry, which no other live entry is judged by
the comparator to dominate; it removes exactly that entry from the
backing contents and decreases the live count by exactly one. -/
theorem pop_best_dominates {α : Type} (pq : PQueue α) (hcmp : cmpOK pq.comparator)
    (hwf : pq.wf) (hheap : pq.heapProp) (hne : 0 < pq.size) :
    ∃ it, pq.getItem 1 = some it ∧ (pq.pop).1 = some it.value ∧
      (∀ i, 2 ≤ i → i ≤ pq.size → pq.less 1 i = false) ∧
      (pq.items : Multiset (Option (Item α))) =
        ((pq.pop).2.items : Multiset (Option (Item α))) + {some it} ∧
      (pq.pop).2.size = pq.size - 1 := by
  obtain ⟨it, h1, h2, h3, _, _, h6, _, _, h9⟩ := pq.pop_spec hcmp hwf hheap hne
  exact ⟨it, h1, h2, h3, h9, h6⟩

/-- Concrete three-entry heap used to witness `pop_best_dominates`. -/
def witnessQueue : PQueue Bid :=
  PQueue.mk [none, some ⟨⟨10⟩, 20, 9⟩, some ⟨⟨11⟩, 15, 3⟩, some ⟨⟨12⟩, 20, 1⟩] 3 bidComparator

theorem pop_best_dominates_witness :
    (cmpOK witnessQueue.comparator ∧ witnessQueue.wf ∧ witnessQueue.heapProp ∧
      0 < witnessQueue.size) ∧
    (∃ it, witnessQueue.getItem 1 = some it ∧ (witnessQueue.pop).1 = some it.value ∧
      (∀ i, 2 ≤ i → i ≤ witnessQueue.size → witnessQueue.less 1 i = false) ∧
      (witnessQueue.items : Multiset (Option (Item Bid))) =
        ((witnessQueue.pop).2.items : Multiset (Option (Item Bid))) + {some it} ∧
      (witnessQueue.pop).2.size = witnessQueue.size - 1) := by
  have hcmp : cmpOK witnessQueue.comparator := cmpOK_bid
  have hwf : witnessQueue.wf := by
    refine ⟨rfl, rfl, ?_⟩
    intro i h1 h2
    have h3 : witnessQueue.elemsCount = 3 := rfl
    rw [h3] at h2
    interval_cases i <;> rfl
  have hheap : witnessQueue.heapProp := by
    intro k c hk hc hcn
    have hsz : witnessQueue.size = 3 := rfl
    have h2c : 2 ≤ c := by omega
    have hc3 : c ≤ 3 := by omega
    interval_cases c
    · have hk1 : k = 1 := by omega
      subst hk1
      decide
    · have hk1 : k = 1 := by omega
      subst hk1
      decide
  have hne : 0 < witnessQueue.size := by decide
  exact ⟨⟨hcmp, hwf, hheap, hne⟩, pop_best_dominates witnessQueue hcmp hwf hheap hne⟩

/-- C6: pop-best and peek-best on an empty queue both return the absent
sentinel and leave the state unchanged; consequently, after pushing `N`
entries into a new queue and popping `N` times, the queue is empty and a
further pop or peek again returns the sentinel. -/
theorem empty_pop_head_sentinel_drain :
    (∀ (α : Type) (pq : PQueue α), pq.size = 0 → pq.pop = (none, pq) ∧ pq.head = none) ∧
    (∀ (t : PQType) (entries : List (Bid × Nat × Nat)),
      (popNQ (pushAll (NewBidPQueue t) entries) entries.length).empty = true ∧
      (popNQ (pushAll (NewBidPQueue t) entries) entries.length).pop
        = (none, popNQ (pushAll (NewBidPQueue t) entries) entries.length) ∧
      (popNQ (pushAll (NewBidPQueue t) entries) entries.length).head = none) := by
  constructor
  · intro α pq h
    exact ⟨pq.pop_empty h, pq.head_empty h⟩
  · intro t entries
    have hsz : (popNQ (pushAll (NewBidPQueue t) entries) entries.length).elemsCount = 0 := by
      apply popNQ_drain
      rw [pushAll_elemsCount]
      have h0 : (NewBidPQueue t).elemsCount = 0 := rfl
      omega
    refine ⟨?_, PQueue.pop_empty _ hsz, PQueue.head_empty _ hsz⟩
    show ((popNQ (pushAll (NewBidPQueue t) entries) entries.length).size == 0) = true
    have hz : (popNQ (pushAll (NewBidPQueue t) entries) entries.length).size = 0 := hsz
    rw [hz]
    rfl

theorem empty_pop_head_sentinel_drain_witness :
    (NewBidPQueue PQType.MAXPQ).size = 0 ∧
      ((NewBidPQueue PQType.MAXPQ).pop = (none, NewBidPQueue PQType.MAXPQ) ∧
        (NewBidPQueue PQType.MAXPQ).head = none) :=
  ⟨rfl, empty_pop_head_sentinel_drain.1 Bid (NewBidPQueue PQType.MAXPQ) rfl⟩

/-- C7: the constructor's ordering mode alone selects the policy,
identically for both payload types: `MAXPQ` binds the high-price-first
comparator and `MINPQ` the low-price-first comparator, for bid-side and
ask-side queues alike. -/
theorem constructor_binds_policy_by_mode :
    (NewBidPQueue PQType.MAXPQ).comparator = bidComparator ∧
    (NewAskPQueue PQType.MAXPQ).comparator = bidComparator ∧
    (NewBidPQueue PQType.MINPQ).comparator = askComparator ∧
    (NewAskPQueue PQType.MINPQ).comparator = askComparator ∧
    ∀ t : PQType, (NewBidPQueue t).comparator = (NewAskPQueue t).comparator := by
  refine ⟨rfl, rfl, rfl, rfl, ?_⟩
  intro t
  cases t <;> rfl

/-- C10: every reachable state keeps the backing slice one longer than
the live count with the `nil` sentinel in slot 0; construction starts at
length 1 and count 0; push grows slice and count by one; pop on a
non-empty queue shrinks both by one. -/
theorem slot_zero_and_length_invariant (t : PQType) (opsB : List (Op Bid))
    (opsA : List (Op Ask)) :
    ((NewBidPQueue t).items.length = 1 ∧ (NewBidPQueue t).elemsCount = 0 ∧
      (NewBidPQueue t).getItem 0 = none) ∧
    ((applyOps (NewBidPQueue t) opsB).items.length
        = (applyOps (NewBidPQueue t) opsB).elemsCount + 1 ∧
      (applyOps (NewBidPQueue t) opsB).getItem 0 = none) ∧
    ((applyOps (NewAskPQueue t) opsA).items.length
        = (applyOps (NewAskPQueue t) opsA).elemsCount + 1 ∧
      (applyOps (NewAskPQueue t) opsA).getItem 0 = none) ∧
    (∀ (v : Bid) (p q : Nat),
      ((applyOps (NewBidPQueue t) opsB).push v p q).items.length
          = (applyOps (NewBidPQueue t) opsB).items.length + 1 ∧
      ((applyOps (NewBidPQueue t) opsB).push v p q).elemsCount
          = (applyOps (NewBidPQueue t) opsB).elemsCount + 1) ∧
    (0 < (applyOps (NewBidPQueue t) opsB).size →
      ((applyOps (NewBidPQueue t) opsB).pop).2.items.length
          = (applyOps (NewBidPQueue t) opsB).items.length - 1 ∧
      ((applyOps (NewBidPQueue t) opsB).pop).2.elemsCount
          = (applyOps (NewBidPQueue t) opsB).elemsCount - 1) := by
  obtain ⟨wB, hB, cB⟩ := applyOps_inv opsB (NewBidPQueue t) (NewBidPQueue_cmpOK t)
    (NewBidPQueue_wf t) (NewBidPQueue_heapProp t)
  obtain ⟨wA, hA, cA⟩ := applyOps_inv opsA (NewAskPQueue t) (NewAskPQueue_cmpOK t)
    (NewAskPQueue_wf t) (NewAskPQueue_heapProp t)
  refine ⟨⟨rfl, rfl, rfl⟩, ⟨wB.1, wB.2.1⟩, ⟨wA.1, wA.2.1⟩, ?_, ?_⟩
  · intro v p q
    obtain ⟨_, _, h3, _, h5, _⟩ := (applyOps (NewBidPQueue t) opsB).push_spec v p q
      (by rw [cB]; exact NewBidPQueue_cmpOK t) wB hB
    exact ⟨h5, h3⟩
  · intro hpos
    obtain ⟨it, _, _, _, _, _, h6, _, h8, _⟩ := (applyOps (NewBidPQueue t) opsB).pop_spec
      (by rw [cB]; exact NewBidPQueue_cmpOK t) wB hB hpos
    exact ⟨h8, h6⟩

theorem slot_zero_and_length_invariant_witness :
    0 < (applyOps (NewBidPQueue PQType.MAXPQ) [Op.push bidA 10 5]).size ∧
    (((applyOps (NewBidPQueue PQType.MAXPQ) [Op.push bidA 10 5]).pop).2.items.length
        = (applyOps (NewBidPQueue PQType.MAXPQ) [Op.push bidA 10 5]).items.length - 1 ∧
      ((applyOps (NewBidPQueue PQType.MAXPQ) [Op.push bidA 10 5]).pop).2.elemsCount
        = (applyOps (NewBidPQueue PQType.MAXPQ) [Op.push bidA 10 5]).elemsCount - 1) := by
  have hpos : 0 < (applyOps (NewBidPQueue PQType.MAXPQ) [Op.push bidA 10 5]).size := by
    show 0 < (applyOps (NewBidPQueue PQType.MAXPQ) [Op.push bidA 10 5]).elemsCount
    have hstep : applyOps (NewBidPQueue PQType.MAXPQ) [Op.push bidA 10 5]
        = (NewBidPQueue PQType.MAXPQ).push bidA 10 5 := rfl
    rw [hstep, PQueue.push_elemsCount]
    omega
  exact ⟨hpos,
    (slot_zero_and_length_invariant PQType.MAXPQ [Op.push bidA 10 5] []).2.2.2.2 hpos⟩

/-! ### Configuration loader (`utils/config.go`) -/

/-- The configuration schema (Go `utils.Configuration`). -/
structure Configuration where
  EventId : String
  EventSecret : String
  LogFileName : String
  LogMaxSize : Int
  LogLevel : String
  DbUser : String
  DbPassword : String
  DbHost : String
  DbName : String

/-- Outcome of `InitConfiguration`: `log.Fatal` terminates the process
(no normal return), otherwise the decoded values are stored in the
global `Configuration` and the function returns normally. -/
inductive InitConfigOutcome where
  | fatal (msg : String)
  | ok (cfg : Configuration)

/-- Go `InitConfiguration`.  The environment is abstracted: `openResult`
is the contents of `config.json` when `os.Open` succeeds and `none` when
it fails; `decodeConfig` is `encoding/json` decoding into the schema,
`none` on a decode error.  The control flow mirrors the Go function:
a failed open is fatal, a failed decode is fatal, otherwise the decoded
configuration is stored. -/
def InitConfiguration (openResult : Option String)
    (decodeConfig : String → Option Configuration) : InitConfigOutcome :=
  match openResult with
  | none => InitConfigOutcome.fatal "Failed to open config.json. Cannot proceed"
  | some contents =>
    match decodeConfig contents with
    | none => InitConfigOutcome.fatal "Failed to load configuration. Cannot proceed."
    | some cfg => InitConfigOutcome.ok cfg

/-- C8: the configuration loader terminates the process exactly when the
config file cannot be opened or its contents fail to decode into the
schema; when open and decode both succeed it completes normally with the
decoded values. -/
theorem init_configuration_fatal_iff (openResult : Option String)
    (decodeConfig : String → Option Configuration) :
    ((∃ m, InitConfiguration openResult decodeConfig = InitConfigOutcome.fatal m) ↔
      (openResult = none ∨ ∃ s, openResult = some s ∧ decodeConfig s = none)) ∧
    (∀ s cfg, openResult = some s → decodeConfig s = some cfg →
      InitConfiguration openResult decodeConfig = InitConfigOutcome.ok cfg) := by
  constructor
  · constructor
    · intro hm
      obtain ⟨m, hm⟩ := hm
      cases ho : openResult with
      | none => exact Or.inl rfl
      | some s =>
        right
        refine ⟨s, rfl, ?_⟩
        rw [ho] at hm
        cases hd : decodeConfig s with
        | none => rfl
        | some cfg =>
          simp [InitConfiguration, hd] at hm
    · intro h
      rcases h with h | ⟨s, hs, hd⟩
      · rw [h]
        exact ⟨_, rfl⟩
      · rw [hs]
        exact ⟨"Failed to load configuration. Cannot proceed.",
          by simp [InitConfiguration, hd]⟩
  · intro s cfg hs hd
    rw [hs]
    simp [InitConfiguration, hd]

/-- Sample decoded configuration for the witness. -/
def sampleConfig : Configuration :=
  ⟨"dalalstreet", "secret", "dalal.log", 10, "info", "dbuser", "dbpass", "localhost", "dalal"⟩

theorem init_configuration_fatal_iff_witness :
    InitConfiguration (some "contents") (fun _ => some sampleConfig)
      = InitConfigOutcome.ok sampleConfig :=
  (init_configuration_fatal_iff (some "contents") (fun _ => some sampleConfig)).2
    "contents" sampleConfig rfl rfl

/-! ### Administrative console dispatcher (`socketapi/repl/repl.go`) -/

/-- The four privileged command names (the keys of the Go map `replCmds`,
in source order; Go map iteration order is unspecified, so the Go
`validCmds` slice is some permutation of these). -/
def replCmdNames : List String :=
  ["sendnotif", "add_stocks_to_exchange", "update_stock_price", "add_market_event"]

/-- Console state: identifiers with a running session (the keys of the
Go `cmdSessions` map) and the advertised command list (Go `validCmds`). -/
structure ReplState where
  cmdSessions : List String
  validCmds : List String

/-- State after Go `InitREPL`: no sessions, `validCmds` holds the keys
of `replCmds`. -/
def initReplState : ReplState :=
  { cmdSessions := [], validCmds := replCmdNames }

/-- The Go reply `fmt.Sprintf("Invalid command \x27%s\x27. Valid commands
are: %+v ", cmd, validCmds)`; `%+v` prints a string slice as the names
separated by spaces inside brackets. -/
def invalidCommandMsg (cmd : String) (valid : List String) : String :=
  "Invalid command \x27" ++ cmd ++ "\x27. Valid commands are: [" ++
    String.intercalate " " valid ++ "] "

/-- Go `Handle`, session-map discipline under the mutex.  The interactive
command bodies run in a separate goroutine and communicate over channels;
their textual replies are abstracted as the parameters `sessionReply`
(input routed to an already-running session) and `firstReply` (first
output of a newly launched command).  What is modelled from the code is
the dispatch itself: an unseen identifier with an invalid command name
gets the `Invalid command` message and no session entry; an unseen
identifier with a valid command gets a fresh session entry; a known
identifier is routed to its running session. -/
def Handle (sessionReply : String → String → String) (firstReply : String → String)
    (st : ReplState) (sid cmd : String) : String × ReplState :=
  if st.cmdSessions.contains sid then
    (sessionReply sid cmd, st)
  else if replCmdNames.contains cmd then
    (firstReply cmd, { st with cmdSessions := sid :: st.cmdSessions })
  else
    (invalidCommandMsg cmd st.validCmds, st)

/-- C9: calling `Handle` with an identifier that has no running session
and a command name outside the fixed privileged set returns the textual
`Invalid command` message listing the valid command names, creates no
session for that identifier, and leaves the state unchanged, so a later
call with that identifier is again first contact. -/
theorem handle_invalid_command_no_session (sessionReply : String → String → String)
    (firstReply : String → String) (st : ReplState) (sid cmd : String)
    (hsid : st.cmdSessions.contains sid = false)
    (hcmd : replCmdNames.contains cmd = false) :
    (Handle sessionReply firstReply st sid cmd).1 = invalidCommandMsg cmd st.validCmds ∧
    (Handle sessionReply firstReply st sid cmd).2 = st ∧
    ((Handle sessionReply firstReply st sid cmd).2).cmdSessions.contains sid = false := by
  have hh : Handle sessionReply firstReply st sid cmd
      = (invalidCommandMsg cmd st.validCmds, st) := by
    unfold Handle
    rw [hsid, hcmd]
    rfl
  rw [hh]
  exact ⟨rfl, rfl, hsid⟩

theorem handle_invalid_command_no_session_witness :
    (initReplState.cmdSessions.contains "conn1" = false ∧
      replCmdNames.contains "makemerich" = false) ∧
    ((Handle (fun _ _ => "") (fun _ => "") initReplState "conn1" "makemerich").1
        = invalidCommandMsg "makemerich" initReplState.validCmds ∧
      (Handle (fun _ _ => "") (fun _ => "") initReplState "conn1" "makemerich").2
        = initReplState ∧
      ((Handle (fun _ _ => "") (fun _ => "")
          initReplState "conn1" "makemerich").2).cmdSessions.contains "conn1" = false) :=
  ⟨⟨rfl, by decide⟩,
    handle_invalid_command_no_session (fun _ _ => "") (fun _ => "") initReplState
      "conn1" "makemerich" rfl (by decide)⟩
